import Mathlib

/-!
Shallow embedding of the fuzzy search engine of `search.service.ts`
(`SearchService`): the tiered string-similarity scorer `fuzzyMatchScore`
with its helpers `levenshteinDistance` and `subsequenceMatchScore`, and the
record ranker `searchEmployees`. Strings are modelled as `List Char`
(JS `toLowerCase` as `Char.toLower` per character); JS numbers as `ℚ`;
JS `Array.prototype.sort`, stable since ES2019, as `List.mergeSort` with the
comparator `(a, b) => b.score - a.score` rendered as the boolean relation
`b.score ≤ a.score`.
-/

namespace SearchService

/-- One record of `employee.model.ts`: six matched string fields plus a
numeric identifier that matching never looks at. -/
structure Employee where
  id : Int
  first_name : List Char
  last_name : List Char
  email : List Char
  role : List Char
  department : List Char
  status : List Char
deriving DecidableEq, Repr

/-- The transient scored record (`interface FuzzyResult`). -/
structure FuzzyResult where
  employee : Employee
  score : ℚ
deriving DecidableEq, Repr

/-- `private fuzzyThreshold = 0.3`. -/
def fuzzyThreshold : ℚ := 3/10

/-- JS `String.prototype.trim`: strip whitespace from both ends. -/
def trim (s : List Char) : List Char :=
  ((s.dropWhile Char.isWhitespace).reverse.dropWhile Char.isWhitespace).reverse

/-- `levenshteinDistance`: minimum number of single-character insertions,
deletions and substitutions turning `str1` into `str2`, the value the
dynamic program of the source computes. -/
def levenshteinDistance : List Char → List Char → Nat
  | [], str2 => str2.length
  | str1, [] => str1.length
  | a :: str1, b :: str2 =>
    if a = b then
      levenshteinDistance str1 str2
    else
      1 + min (levenshteinDistance str1 (b :: str2))
          (min (levenshteinDistance (a :: str1) str2)
            (levenshteinDistance str1 str2))
termination_by str1 str2 => str1.length + str2.length
decreasing_by all_goals simp_arith

/-- The scanning loop of `subsequenceMatchScore`: walk `text` once, trying to
match the characters of `search` in order, tracking the current run of
consecutive matches and the best run seen.  Returns the unmatched remainder
of `search` (empty iff `searchIndex` reached `search.length`) and the final
`maxConsecutive`. -/
def subsequenceLoop :
    List Char → List Char → Nat → Nat → List Char × Nat
  | [], _, _, maxConsecutive => ([], maxConsecutive)
  | search, [], _, maxConsecutive => (search, maxConsecutive)
  | sc :: search, c :: text, consecutiveMatches, maxConsecutive =>
    if c = sc then
      subsequenceLoop search text (consecutiveMatches + 1)
        (max maxConsecutive (consecutiveMatches + 1))
    else
      subsequenceLoop (sc :: search) text 0 maxConsecutive

/-- `subsequenceMatchScore`: if every character of `search` appears in `text`
in order, `(searchIndex / text.length + maxConsecutive / search.length) / 2`,
else `0`. -/
def subsequenceMatchScore (search text : List Char) : ℚ :=
  let r := subsequenceLoop search text 0 0
  if r.1 = [] then
    let searchIndex := search.length
    let baseScore : ℚ := (searchIndex : ℚ) / (text.length : ℚ)
    let consecutiveBonus : ℚ := (r.2 : ℚ) / (search.length : ℚ)
    (baseScore + consecutiveBonus) / 2
  else 0

/-- `fuzzyMatchScore`: lowercase both strings, then the first tier that fires
wins — exact match 1.0, substring containment 0.9, prefix either way 0.85,
ordered subsequence `0.5 + subsequenceScore * 0.3`, and finally the
Levenshtein similarity `similarity * 0.7` when `similarity > 0.4`, else 0. -/
def fuzzyMatchScore (searchTerm target : List Char) : ℚ :=
  let search := searchTerm.map Char.toLower
  let text := target.map Char.toLower
  if text = search then 1
  else if search <:+: text then 9/10
  else if search <+: text ∨ text <+: search then 85/100
  else
    let subsequenceScore := subsequenceMatchScore search text
    if 0 < subsequenceScore then 1/2 + subsequenceScore * (3/10)
    else
      let maxLen := max search.length text.length
      if maxLen = 0 then 0
      else
        let distance := levenshteinDistance search text
        let similarity : ℚ := 1 - (distance : ℚ) / (maxLen : ℚ)
        if 2/5 < similarity then similarity * (7/10) else 0

/-- The `scores` array of `searchEmployees`: the seven per-field scores of a
record against the (already trimmed) term, the last one against the
synthetic composite `"<first_name> <last_name>"`. -/
def recordScores (term : List Char) (employee : Employee) : List ℚ :=
  [fuzzyMatchScore term employee.first_name,
   fuzzyMatchScore term employee.last_name,
   fuzzyMatchScore term employee.email,
   fuzzyMatchScore term employee.role,
   fuzzyMatchScore term employee.department,
   fuzzyMatchScore term employee.status,
   fuzzyMatchScore term (employee.first_name ++ [' '] ++ employee.last_name)]

/-- `const bestScore = Math.max(...scores)`. -/
def bestScore (term : List Char) (employee : Employee) : ℚ :=
  ((recordScores term employee).foldl max
    (fuzzyMatchScore term employee.first_name))

/-- The `results` accumulation of `searchEmployees`: keep, in input order,
the records whose best score reaches the threshold, paired with that
score. -/
def scoredResults (employees : List Employee) (term : List Char) :
    List FuzzyResult :=
  employees.filterMap fun employee =>
    let score := bestScore term employee
    if fuzzyThreshold ≤ score then some ⟨employee, score⟩ else none

/-- The sort comparator `(a, b) => b.score - a.score` of `searchEmployees`:
`a` may stay before `b` exactly when `b.score - a.score ≤ 0`. -/
def resultLE (a b : FuzzyResult) : Bool := decide (b.score ≤ a.score)

/-- `searchEmployees`: pass the input through unchanged when the trimmed
term is empty; otherwise score, filter by the threshold, sort by score
descending (stable), and drop the scores. -/
def searchEmployees (employees : List Employee) (searchTerm : List Char) :
    List Employee :=
  if trim searchTerm = [] then employees
  else
    let term := trim searchTerm
    let results := scoredResults employees term
    (results.mergeSort resultLE).map fun r => r.employee

/-! JS-runtime model of the same service over possibly malformed records,
for the failure-semantics analysis: a field value is `some s` when it is a
string and `none` when it is missing or not a string (`undefined`-like).
`Except Unit` models a thrown `TypeError`. -/

/-- An employee record as the JS runtime may actually see it: each field
value is either a string (`some`) or a missing/non-string value (`none`). -/
structure RawEmployee where
  id : Int
  first_name : Option (List Char)
  last_name : Option (List Char)
  email : Option (List Char)
  role : Option (List Char)
  department : Option (List Char)
  status : Option (List Char)
deriving DecidableEq, Repr

/-- A scored raw record. -/
structure RawFuzzyResult where
  employee : RawEmployee
  score : ℚ
deriving DecidableEq, Repr

/-- `fuzzyMatchScore` under JS semantics: `target.toLowerCase()` throws a
`TypeError` when the field value is missing or not a string. -/
def fuzzyMatchScoreJS (searchTerm : List Char) :
    Option (List Char) → Except Unit ℚ
  | none => .error ()
  | some target => .ok (fuzzyMatchScore searchTerm target)

/-- JS template-literal stringification used by the composite field:
an `undefined` value prints as the string `undefined` (no throw). -/
def stringifyField : Option (List Char) → List Char
  | none => ("undefined".toList)
  | some s => s

/-- The `scores` array and `Math.max` of `searchEmployees` under JS
semantics: the fields are scored left to right and the first missing or
non-string one throws. -/
def bestScoreJS (term : List Char) (e : RawEmployee) : Except Unit ℚ :=
  match fuzzyMatchScoreJS term e.first_name with
  | .error u => .error u
  | .ok s1 =>
  match fuzzyMatchScoreJS term e.last_name with
  | .error u => .error u
  | .ok s2 =>
  match fuzzyMatchScoreJS term e.email with
  | .error u => .error u
  | .ok s3 =>
  match fuzzyMatchScoreJS term e.role with
  | .error u => .error u
  | .ok s4 =>
  match fuzzyMatchScoreJS term e.department with
  | .error u => .error u
  | .ok s5 =>
  match fuzzyMatchScoreJS term e.status with
  | .error u => .error u
  | .ok s6 =>
  let s7 := fuzzyMatchScore term
    (stringifyField e.first_name ++ [' '] ++ stringifyField e.last_name)
  .ok (max s1 (max s2 (max s3 (max s4 (max s5 (max s6 s7))))))

/-- The record loop of `searchEmployees` under JS semantics: a throw while
scoring any record aborts the whole walk. -/
def resultsLoopJS (term : List Char) :
    List RawEmployee → Except Unit (List RawFuzzyResult)
  | [] => .ok []
  | e :: rest =>
    match bestScoreJS term e with
    | .error u => .error u
    | .ok score =>
      match resultsLoopJS term rest with
      | .error u => .error u
      | .ok results =>
        .ok (if fuzzyThreshold ≤ score then ⟨e, score⟩ :: results else results)

/-- The comparator on scored raw records. -/
def rawResultLE (a b : RawFuzzyResult) : Bool := decide (b.score ≤ a.score)

/-- `searchEmployees` under JS semantics over possibly malformed records. -/
def searchEmployeesJS (employees : List RawEmployee) (searchTerm : List Char) :
    Except Unit (List RawEmployee) :=
  if trim searchTerm = [] then .ok employees
  else
    match resultsLoopJS (trim searchTerm) employees with
    | .error u => .error u
    | .ok results =>
      .ok ((results.mergeSort rawResultLE).map fun r => r.employee)

/-! Concrete sample records used to instantiate theorems on closed inputs. -/

/-- A small well-formed employee record. -/
def wEmp : Employee :=
  { id := 1, first_name := ("al".toList), last_name := ("bo".toList),
    email := ("ab".toList), role := ("hr".toList),
    department := ("it".toList), status := ("on".toList) }

/-- A second well-formed employee record. -/
def wEmp2 : Employee :=
  { id := 2, first_name := ("ala".toList), last_name := ("cy".toList),
    email := ("ac".toList), role := ("pm".toList),
    department := ("qa".toList), status := ("off".toList) }

/-- A raw record every field of which is a string. -/
def rawGood : RawEmployee :=
  { id := 1, first_name := some ("al".toList), last_name := some ("bo".toList),
    email := some ("ab".toList), role := some ("hr".toList),
    department := some ("it".toList), status := some ("on".toList) }

/-- A raw record whose `first_name` is missing or not a string. -/
def rawBad : RawEmployee :=
  { id := 2, first_name := none, last_name := some ("cy".toList),
    email := some ("ac".toList), role := some ("pm".toList),
    department := some ("qa".toList), status := some ("off".toList) }

end SearchService

section Scratch
open SearchService

example : fuzzyMatchScore ("engr".toList) ("engineering".toList) =
    1/2 + ((4/11 + 3/4 : ℚ)/2) * (3/10) := by
  norm_num +decide [fuzzyMatchScore, subsequenceMatchScore, subsequenceLoop]
example : fuzzyMatchScore ("jon".toList) ("jon".toList) = 1 := by
  norm_num +decide [fuzzyMatchScore]
example : fuzzyMatchScore ("jon".toList) ("john".toList) =
    1/2 + ((3/4 + 2/3 : ℚ)/2) * (3/10) := by
  norm_num +decide [fuzzyMatchScore, subsequenceMatchScore, subsequenceLoop]
example : fuzzyMatchScore ("a".toList) [] = 85/100 := by
  norm_num +decide [fuzzyMatchScore]
example : fuzzyMatchScore [] ("abc".toList) = 9/10 := by
  norm_num +decide [fuzzyMatchScore]
example : fuzzyMatchScore [] [] = 1 := by
  norm_num +decide [fuzzyMatchScore]
example : levenshteinDistance ("ab".toList) ("ca".toList) = 2 := by
  norm_num +decide [levenshteinDistance]
example : fuzzyMatchScore ("ab".toList) ("cd".toList) = 0 := by
  norm_num +decide [fuzzyMatchScore, subsequenceMatchScore, subsequenceLoop,
    levenshteinDistance]

end Scratch

namespace SearchService

/-- The best run recorded by the scanning loop never exceeds the starting
best plus the characters still available to match. -/
theorem subsequenceLoop_snd_le :
    ∀ (s t : List Char) (c m : Nat),
      (subsequenceLoop s t c m).2 ≤ max m (c + s.length)
  | [], t, c, m => by simp [subsequenceLoop]
  | sc :: s, [], c, m => by simp [subsequenceLoop]
  | sc :: s, ch :: t, c, m => by
    simp only [subsequenceLoop]
    split
    · have h := subsequenceLoop_snd_le s t (c + 1) (max m (c + 1))
      simp only [List.length_cons]
      omega
    · have h := subsequenceLoop_snd_le (sc :: s) t 0 m
      simp only [List.length_cons] at h ⊢
      omega

/-- If the loop matched every character of `search`, then `search` is no
longer than `text`. -/
theorem length_le_of_subsequenceLoop :
    ∀ (s t : List Char) (c m : Nat),
      (subsequenceLoop s t c m).1 = [] → s.length ≤ t.length
  | [], t, c, m, _ => by simp
  | sc :: s, [], c, m, h => by simp [subsequenceLoop] at h
  | sc :: s, ch :: t, c, m, h => by
    simp only [subsequenceLoop] at h
    split at h
    · have := length_le_of_subsequenceLoop s t _ _ h
      simp only [List.length_cons]
      omega
    · have := length_le_of_subsequenceLoop (sc :: s) t 0 m h
      simp only [List.length_cons] at this ⊢
      omega

/-- Greedy completeness: when `search` is an ordered subsequence of `text`,
the scanning loop matches all of it. -/
theorem subsequenceLoop_eq_nil_of_sublist :
    ∀ (s t : List Char) (c m : Nat), s.Sublist t →
      (subsequenceLoop s t c m).1 = []
  | [], t, c, m, _ => by simp [subsequenceLoop]
  | sc :: s, [], c, m, h => by simp at h
  | sc :: s, ch :: t, c, m, h => by
    simp only [subsequenceLoop]
    split
    · rename_i heq
      subst heq
      exact subsequenceLoop_eq_nil_of_sublist s t _ _
        (List.cons_sublist_cons.mp h)
    · rename_i hne
      have h' : (sc :: s).Sublist t := by
        cases h with
        | cons _ h => exact h
        | cons₂ _ h => exact absurd rfl hne
      exact subsequenceLoop_eq_nil_of_sublist (sc :: s) t 0 m h'

/-- The subsequence score is never negative. -/
theorem subsequenceMatchScore_nonneg (s t : List Char) :
    0 ≤ subsequenceMatchScore s t := by
  simp only [subsequenceMatchScore]
  split
  · positivity
  · exact le_refl 0

/-- The subsequence score never exceeds 1. -/
theorem subsequenceMatchScore_le_one (s t : List Char) :
    subsequenceMatchScore s t ≤ 1 := by
  simp only [subsequenceMatchScore]
  split
  · rename_i h
    have hst : s.length ≤ t.length := length_le_of_subsequenceLoop s t 0 0 h
    have hm : (subsequenceLoop s t 0 0).2 ≤ s.length := by
      have := subsequenceLoop_snd_le s t 0 0
      simpa using this
    have hbase : (s.length : ℚ) / (t.length : ℚ) ≤ 1 := by
      rcases Nat.eq_zero_or_pos t.length with ht | ht
      · have hs0 : s.length = 0 := by omega
        rw [hs0, ht]
        norm_num
      · rw [div_le_one (by exact_mod_cast ht)]
        exact_mod_cast hst
    have hbonus : ((subsequenceLoop s t 0 0).2 : ℚ) / (s.length : ℚ) ≤ 1 := by
      rcases Nat.eq_zero_or_pos s.length with hs | hs
      · simp [hs]
      · rw [div_le_one (by exact_mod_cast hs)]
        exact_mod_cast hm
    linarith
  · norm_num

/-- The Levenshtein distance between two strings is at most the longer
length. -/
theorem levenshteinDistance_le :
    ∀ (s t : List Char), levenshteinDistance s t ≤ max s.length t.length
  | [], t => by simp [levenshteinDistance]
  | a :: s, [] => by simp [levenshteinDistance]
  | a :: s, b :: t => by
    simp only [levenshteinDistance]
    split
    · have h := levenshteinDistance_le s t
      simp only [List.length_cons]
      omega
    · have h3 := levenshteinDistance_le s t
      simp only [List.length_cons]
      omega
termination_by s t => s.length + t.length
decreasing_by all_goals simp_arith

end SearchService

/-- C4: `fuzzyMatchScore` is a total function on arbitrary strings (both
empty strings included) and always returns a finite rational in the closed
interval `[0, 1]`: every tier value — 1, 9/10, 85/100, the subsequence
formula, the guarded edit-distance similarity — lies in that interval. -/
theorem SearchService.fuzzyMatchScore_bounded
    (searchTerm target : List Char) :
    fuzzyMatchScore searchTerm target ∈ Set.Icc (0 : ℚ) 1 := by
  rw [Set.mem_Icc]
  simp only [fuzzyMatchScore]
  split_ifs with h1 h2 h3 h4 h5 h6
  · norm_num
  · norm_num
  · norm_num
  · have hle := subsequenceMatchScore_le_one
      (searchTerm.map Char.toLower) (target.map Char.toLower)
    constructor <;> nlinarith
  · norm_num
  · set search := searchTerm.map Char.toLower
    set text := target.map Char.toLower
    have hd : levenshteinDistance search text ≤ max search.length text.length :=
      levenshteinDistance_le search text
    have hpos : (0 : ℚ) < ((max search.length text.length : Nat) : ℚ) := by
      exact_mod_cast Nat.pos_of_ne_zero h5
    have hq : (levenshteinDistance search text : ℚ) /
        ((max search.length text.length : Nat) : ℚ) ≤ 1 := by
      rw [div_le_one hpos]
      exact_mod_cast hd
    have hq0 : 0 ≤ (levenshteinDistance search text : ℚ) /
        ((max search.length text.length : Nat) : ℚ) := by positivity
    constructor <;> nlinarith
  · norm_num

/-- C10: every score `fuzzyMatchScore` can return is either exactly 0 or
strictly greater than 28/100: the first three tiers return 1, 9/10 and
85/100, a firing subsequence tier returns more than 1/2, and the
edit-distance tier returns `similarity * (7/10)` only under the guard
`2/5 < similarity`, which puts it above `2/5 * 7/10 = 28/100`. -/
theorem SearchService.fuzzyMatchScore_eq_zero_or_gt
    (searchTerm target : List Char) :
    fuzzyMatchScore searchTerm target = 0 ∨
      28/100 < fuzzyMatchScore searchTerm target := by
  simp only [fuzzyMatchScore]
  split_ifs with h1 h2 h3 h4 h5 h6
  · right; norm_num
  · right; norm_num
  · right; norm_num
  · right
    nlinarith
  · left; rfl
  · right
    nlinarith
  · left; rfl

namespace SearchService

/-- Characterisation of the kept scored records: a scored record is in
`results` exactly when its employee is in the input, its score is that
employee's best score, and that score reaches the threshold. -/
theorem mem_scoredResults {employees : List Employee} {term : List Char}
    {x : FuzzyResult} :
    x ∈ scoredResults employees term ↔
      x.employee ∈ employees ∧ x.score = bestScore term x.employee ∧
        fuzzyThreshold ≤ bestScore term x.employee := by
  simp only [scoredResults, List.mem_filterMap]
  constructor
  · rintro ⟨e, he, hx⟩
    split at hx
    · rename_i hth
      cases hx
      exact ⟨he, rfl, hth⟩
    · cases hx
  · rintro ⟨he, hsc, hth⟩
    refine ⟨x.employee, he, ?_⟩
    rw [if_pos hth]
    cases x
    simp_all

/-- The comparator is transitive. -/
theorem resultLE_trans (a b c : FuzzyResult) :
    resultLE a b → resultLE b c → resultLE a c := by
  simp only [resultLE, decide_eq_true_eq]
  exact fun h1 h2 => le_trans h2 h1

/-- The comparator is total. -/
theorem resultLE_total (a b : FuzzyResult) :
    resultLE a b || resultLE b a := by
  simp only [resultLE, Bool.or_eq_true, decide_eq_true_eq]
  exact le_total b.score a.score

end SearchService

/-- C3: when the query trims to the empty string, `searchEmployees` returns
the input collection unchanged — same length, same records, same order —
through the dedicated pass-through branch. -/
theorem SearchService.searchEmployees_empty_query
    (employees : List SearchService.Employee) (searchTerm : List Char)
    (h : SearchService.trim searchTerm = []) :
    SearchService.searchEmployees employees searchTerm = employees := by
  simp [SearchService.searchEmployees, h]

/-- Witness for C3 at a whitespace-only query and a one-record collection. -/
theorem SearchService.searchEmployees_empty_query_witness :
    SearchService.trim (" ".toList) = [] ∧
      SearchService.searchEmployees [SearchService.wEmp] (" ".toList) =
        [SearchService.wEmp] :=
  ⟨by decide,
   SearchService.searchEmployees_empty_query [SearchService.wEmp]
     (" ".toList) (by decide)⟩

/-- C1: for a non-empty trimmed query, a record is in the output of
`searchEmployees` exactly when it is in the input and its best-field score
against the trimmed query reaches the threshold 3/10; in particular no
returned record scores below 3/10. -/
theorem SearchService.searchEmployees_mem_iff
    (employees : List SearchService.Employee) (searchTerm : List Char)
    (h : SearchService.trim searchTerm ≠ [])
    (e : SearchService.Employee) :
    e ∈ SearchService.searchEmployees employees searchTerm ↔
      e ∈ employees ∧
        SearchService.fuzzyThreshold ≤
          SearchService.bestScore (SearchService.trim searchTerm) e := by
  simp only [SearchService.searchEmployees, if_neg h, List.mem_map,
    List.mem_mergeSort]
  constructor
  · rintro ⟨x, hx, rfl⟩
    rw [SearchService.mem_scoredResults] at hx
    exact ⟨hx.1, hx.2.2⟩
  · rintro ⟨he, hth⟩
    exact ⟨⟨e, SearchService.bestScore (SearchService.trim searchTerm) e⟩,
      SearchService.mem_scoredResults.mpr ⟨he, rfl, hth⟩, rfl⟩

/-- Witness for C1: the query `al` on a one-record collection whose first
name is `al`. -/
theorem SearchService.searchEmployees_mem_iff_witness :
    SearchService.trim ("al".toList) ≠ [] ∧
      (SearchService.wEmp ∈
          SearchService.searchEmployees [SearchService.wEmp] ("al".toList) ↔
        SearchService.wEmp ∈ [SearchService.wEmp] ∧
          SearchService.fuzzyThreshold ≤
            SearchService.bestScore (SearchService.trim ("al".toList))
              SearchService.wEmp) :=
  ⟨by decide,
   SearchService.searchEmployees_mem_iff [SearchService.wEmp] ("al".toList)
     (by decide) SearchService.wEmp⟩

namespace SearchService

/-- Dropping the scores from the kept records never yields more copies of
a record than the input held. -/
theorem count_scoredResults_le (employees : List Employee)
    (term : List Char) (e : Employee) :
    ((scoredResults employees term).map (fun r => r.employee)).count e ≤
      employees.count e := by
  induction employees with
  | nil => simp [scoredResults]
  | cons a l ih =>
    by_cases hc : fuzzyThreshold ≤ bestScore term a
    · simp only [scoredResults, List.filterMap_cons, if_pos hc,
        List.map_cons, List.count_cons] at ih ⊢
      exact Nat.add_le_add_right ih _
    · simp only [scoredResults, List.filterMap_cons, if_neg hc,
        List.count_cons] at ih ⊢
      exact le_trans ih (Nat.le_add_right _ _)

end SearchService

/-- C9: for every collection and every query, the output of
`searchEmployees` is a selection of the input up to reordering: no record
occurs in the output more often than in the input, the output is never
longer than the input, and every output record is an input record. -/
theorem SearchService.searchEmployees_selection
    (employees : List SearchService.Employee) (searchTerm : List Char) :
    (∀ e : SearchService.Employee,
        (SearchService.searchEmployees employees searchTerm).count e ≤
          employees.count e) ∧
      (SearchService.searchEmployees employees searchTerm).length ≤
        employees.length ∧
      ∀ e ∈ SearchService.searchEmployees employees searchTerm,
        e ∈ employees := by
  by_cases h : SearchService.trim searchTerm = []
  · simp [SearchService.searchEmployees, h]
  · have hperm :
        List.Perm
          (((SearchService.scoredResults employees
              (SearchService.trim searchTerm)).mergeSort
                SearchService.resultLE).map (fun r => r.employee))
          ((SearchService.scoredResults employees
            (SearchService.trim searchTerm)).map (fun r => r.employee)) :=
      (List.mergeSort_perm _ _).map _
    simp only [SearchService.searchEmployees, if_neg h]
    refine ⟨?_, ?_, ?_⟩
    · intro e
      rw [hperm.count_eq]
      exact SearchService.count_scoredResults_le employees _ e
    · rw [hperm.length_eq, List.length_map]
      exact List.length_filterMap_le _ _
    · intro e he
      rw [List.mem_map] at he
      obtain ⟨x, hx, rfl⟩ := he
      rw [List.mem_mergeSort] at hx
      exact (SearchService.mem_scoredResults.mp hx).1

namespace SearchService

/-- Stability of the sort on equal scores: filtering the sorted results to
one score value gives exactly the kept records of that score in input
order. -/
theorem mergeSort_filter_score (R : List FuzzyResult) (s : ℚ) :
    (R.mergeSort resultLE).filter (fun x => decide (x.score = s)) =
      R.filter (fun x => decide (x.score = s)) := by
  set q : FuzzyResult → Bool := fun x => decide (x.score = s) with hq
  have hpair : (R.filter q).Pairwise (fun a b => resultLE a b = true) := by
    apply List.pairwise_of_forall_mem_list
    intro a ha b hb
    have ha' := (List.mem_filter.mp ha).2
    have hb' := (List.mem_filter.mp hb).2
    simp only [hq, decide_eq_true_eq] at ha' hb'
    simp [resultLE, ha', hb']
  have hsub : (R.filter q).Sublist (R.mergeSort resultLE) :=
    List.sublist_mergeSort resultLE_trans resultLE_total hpair
      (List.filter_sublist R)
  have h1 : (R.filter q).Sublist ((R.mergeSort resultLE).filter q) := by
    have h2 := hsub.filter q
    rwa [List.filter_eq_self.mpr (fun a ha => (List.mem_filter.mp ha).2)]
      at h2
  have hlen : ((R.mergeSort resultLE).filter q).length =
      (R.filter q).length :=
    ((List.mergeSort_perm R resultLE).filter q).length_eq
  exact (h1.eq_of_length hlen.symm).symm

/-- Unfolding of the kept-record accumulation over a cons cell. -/
theorem scoredResults_cons (a : Employee) (l : List Employee)
    (term : List Char) :
    scoredResults (a :: l) term =
      if fuzzyThreshold ≤ bestScore term a then
        ⟨a, bestScore term a⟩ :: scoredResults l term
      else scoredResults l term := by
  by_cases h : fuzzyThreshold ≤ bestScore term a <;>
    simp [scoredResults, List.filterMap_cons, h]

/-- The kept records of one score value, scores dropped, are the input
records that are kept and have that score, in input order. -/
theorem scoredResults_filter_map (employees : List Employee)
    (term : List Char) (s : ℚ) :
    ((scoredResults employees term).filter
        (fun x => decide (x.score = s))).map (fun r => r.employee) =
      employees.filter (fun e =>
        decide (fuzzyThreshold ≤ bestScore term e ∧ bestScore term e = s)) := by
  induction employees with
  | nil => simp [scoredResults]
  | cons a l ih =>
    by_cases hth : fuzzyThreshold ≤ bestScore term a
    · rw [scoredResults_cons, if_pos hth, List.filter_cons, List.filter_cons]
      by_cases hs : bestScore term a = s
      · rw [if_pos (by simp [hs]),
          if_pos (by simp only [decide_eq_true_eq]; exact ⟨hth, hs⟩)]
        simp only [List.map_cons]
        rw [ih]
      · rw [if_neg (by simp [hs]), if_neg (by simp [hs])]
        exact ih
    · rw [scoredResults_cons, if_neg hth, List.filter_cons,
        if_neg (by simp [hth])]
      exact ih

end SearchService

/-- C2: for a non-empty trimmed query, the output of `searchEmployees` is
sorted by best-field score in descending order, and the records of any one
score value appear in the same relative order as in the input (the sort is
stable and uses no secondary key). -/
theorem SearchService.searchEmployees_sorted_stable
    (employees : List SearchService.Employee) (searchTerm : List Char)
    (h : SearchService.trim searchTerm ≠ []) :
    (SearchService.searchEmployees employees searchTerm).Pairwise
        (fun a b =>
          SearchService.bestScore (SearchService.trim searchTerm) b ≤
            SearchService.bestScore (SearchService.trim searchTerm) a) ∧
      ∀ s : ℚ,
        (SearchService.searchEmployees employees searchTerm).filter
            (fun e => decide
              (SearchService.bestScore (SearchService.trim searchTerm) e = s)) =
          employees.filter (fun e => decide
            (SearchService.fuzzyThreshold ≤
                SearchService.bestScore (SearchService.trim searchTerm) e ∧
              SearchService.bestScore (SearchService.trim searchTerm) e = s)) := by
  constructor
  · simp only [SearchService.searchEmployees, if_neg h]
    rw [List.pairwise_map]
    have hs := List.sorted_mergeSort SearchService.resultLE_trans
      SearchService.resultLE_total
      (SearchService.scoredResults employees (SearchService.trim searchTerm))
    refine List.Pairwise.imp_of_mem ?_ hs
    intro a b ha hb hab
    have ha' := SearchService.mem_scoredResults.mp (List.mem_mergeSort.mp ha)
    have hb' := SearchService.mem_scoredResults.mp (List.mem_mergeSort.mp hb)
    simp only [SearchService.resultLE, decide_eq_true_eq] at hab
    rw [← ha'.2.1, ← hb'.2.1]
    exact hab
  · intro s
    simp only [SearchService.searchEmployees, if_neg h]
    rw [List.filter_map]
    have hcong :
        ((SearchService.scoredResults employees
            (SearchService.trim searchTerm)).mergeSort
              SearchService.resultLE).filter
            ((fun e => decide
              (SearchService.bestScore (SearchService.trim searchTerm) e = s)) ∘
              (fun r => r.employee)) =
          ((SearchService.scoredResults employees
            (SearchService.trim searchTerm)).mergeSort
              SearchService.resultLE).filter
            (fun x => decide (x.score = s)) := by
      apply List.filter_congr
      intro x hx
      have hxm := SearchService.mem_scoredResults.mp
        (List.mem_mergeSort.mp hx)
      simp [Function.comp, hxm.2.1]
    rw [hcong, SearchService.mergeSort_filter_score,
      SearchService.scoredResults_filter_map]

/-- Witness for C2 at the query `al` on a two-record collection. -/
theorem SearchService.searchEmployees_sorted_stable_witness :
    SearchService.trim ("al".toList) ≠ [] ∧
      ((SearchService.searchEmployees [SearchService.wEmp, SearchService.wEmp2]
          ("al".toList)).Pairwise
          (fun a b =>
            SearchService.bestScore (SearchService.trim ("al".toList)) b ≤
              SearchService.bestScore (SearchService.trim ("al".toList)) a) ∧
        ∀ s : ℚ,
          (SearchService.searchEmployees
              [SearchService.wEmp, SearchService.wEmp2] ("al".toList)).filter
              (fun e => decide
                (SearchService.bestScore
                  (SearchService.trim ("al".toList)) e = s)) =
            [SearchService.wEmp, SearchService.wEmp2].filter (fun e => decide
              (SearchService.fuzzyThreshold ≤
                  SearchService.bestScore
                    (SearchService.trim ("al".toList)) e ∧
                SearchService.bestScore
                  (SearchService.trim ("al".toList)) e = s))) :=
  ⟨by decide,
   SearchService.searchEmployees_sorted_stable
     [SearchService.wEmp, SearchService.wEmp2] ("al".toList) (by decide)⟩

namespace SearchService

/-- Re-scoring a list of already-kept records (scores dropped) recovers it:
every element carries its own best score and passes the threshold. -/
theorem scoredResults_map_self (term : List Char) :
    ∀ (L : List FuzzyResult),
      (∀ x ∈ L, x.score = bestScore term x.employee ∧
        fuzzyThreshold ≤ bestScore term x.employee) →
      scoredResults (L.map fun r => r.employee) term = L
  | [], _ => by simp [scoredResults]
  | x :: l, hmem => by
    have hx := hmem x (List.mem_cons_self x l)
    have hrest := scoredResults_map_self term l
      (fun y hy => hmem y (List.mem_cons_of_mem x hy))
    simp only [List.map_cons]
    rw [scoredResults_cons, if_pos hx.2, hrest]
    congr 1
    cases x
    simp_all

end SearchService

/-- C8: `searchEmployees` is idempotent — feeding its output back in with
the same query returns that output unchanged (for an empty trimmed query
both calls pass through; otherwise the output is already all above the
threshold and already sorted, so re-ranking keeps every record in place). -/
theorem SearchService.searchEmployees_idempotent
    (employees : List SearchService.Employee) (searchTerm : List Char) :
    SearchService.searchEmployees
        (SearchService.searchEmployees employees searchTerm) searchTerm =
      SearchService.searchEmployees employees searchTerm := by
  by_cases h : SearchService.trim searchTerm = []
  · simp [SearchService.searchEmployees, h]
  · have hM : ∀ x ∈ (SearchService.scoredResults employees
        (SearchService.trim searchTerm)).mergeSort SearchService.resultLE,
        x.score = SearchService.bestScore
            (SearchService.trim searchTerm) x.employee ∧
          SearchService.fuzzyThreshold ≤ SearchService.bestScore
            (SearchService.trim searchTerm) x.employee := by
      intro x hx
      have := SearchService.mem_scoredResults.mp (List.mem_mergeSort.mp hx)
      exact ⟨this.2.1, this.2.2⟩
    have hsorted : ((SearchService.scoredResults employees
        (SearchService.trim searchTerm)).mergeSort
          SearchService.resultLE).Pairwise
        (fun a b => SearchService.resultLE a b = true) :=
      List.sorted_mergeSort SearchService.resultLE_trans
        SearchService.resultLE_total _
    conv_lhs =>
      rw [SearchService.searchEmployees, if_neg h]
    rw [SearchService.searchEmployees, if_neg h]
    simp only
    rw [SearchService.scoredResults_map_self (SearchService.trim searchTerm)
      _ hM]
    rw [List.mergeSort_of_sorted hsorted]

/-- C5: when the lowercased query is an ordered subsequence of the
lowercased target and none of the exact, substring or prefix tiers fires,
the score is `0.5 + 0.3 * ((|q| / |t| + maxRun / |q|) / 2)`, where `maxRun`
is the longest run of consecutively matched characters found by the scan;
this value is strictly above 1/2 and at most 8/10. -/
theorem SearchService.fuzzyMatchScore_subsequence_tier
    (q t : List Char)
    (h1 : t.map Char.toLower ≠ q.map Char.toLower)
    (h2 : ¬ (q.map Char.toLower) <:+: (t.map Char.toLower))
    (h3 : ¬ ((q.map Char.toLower) <+: (t.map Char.toLower) ∨
      (t.map Char.toLower) <+: (q.map Char.toLower)))
    (h4 : (q.map Char.toLower).Sublist (t.map Char.toLower)) :
    SearchService.fuzzyMatchScore q t =
        1/2 + 3/10 * (((q.length : ℚ) / (t.length : ℚ) +
          ((SearchService.subsequenceLoop (q.map Char.toLower)
              (t.map Char.toLower) 0 0).2 : ℚ) / (q.length : ℚ)) / 2) ∧
      1/2 < SearchService.fuzzyMatchScore q t ∧
        SearchService.fuzzyMatchScore q t ≤ 8/10 := by
  have hrem : (SearchService.subsequenceLoop (q.map Char.toLower)
      (t.map Char.toLower) 0 0).1 = [] :=
    SearchService.subsequenceLoop_eq_nil_of_sublist _ _ 0 0 h4
  have hsne : q.map Char.toLower ≠ [] := by
    intro hnil
    exact h2 (hnil ▸ List.nil_infix)
  have hslen : 0 < (q.map Char.toLower).length := List.length_pos.mpr hsne
  have htlen : (q.map Char.toLower).length ≤ (t.map Char.toLower).length :=
    h4.length_le
  have hval : SearchService.subsequenceMatchScore (q.map Char.toLower)
      (t.map Char.toLower) =
        (((q.map Char.toLower).length : ℚ) /
            ((t.map Char.toLower).length : ℚ) +
          ((SearchService.subsequenceLoop (q.map Char.toLower)
              (t.map Char.toLower) 0 0).2 : ℚ) /
            ((q.map Char.toLower).length : ℚ)) / 2 := by
    simp only [SearchService.subsequenceMatchScore]
    rw [if_pos hrem]
  have hbase : (0 : ℚ) < ((q.map Char.toLower).length : ℚ) /
      ((t.map Char.toLower).length : ℚ) :=
    div_pos (by exact_mod_cast hslen)
      (by exact_mod_cast lt_of_lt_of_le hslen htlen)
  have hbonus : (0 : ℚ) ≤ ((SearchService.subsequenceLoop
      (q.map Char.toLower) (t.map Char.toLower) 0 0).2 : ℚ) /
        ((q.map Char.toLower).length : ℚ) := by positivity
  have hspos : 0 < SearchService.subsequenceMatchScore (q.map Char.toLower)
      (t.map Char.toLower) := by
    rw [hval]
    linarith
  have hsle : SearchService.subsequenceMatchScore (q.map Char.toLower)
      (t.map Char.toLower) ≤ 1 :=
    SearchService.subsequenceMatchScore_le_one _ _
  have hfuzzy : SearchService.fuzzyMatchScore q t =
      1/2 + SearchService.subsequenceMatchScore (q.map Char.toLower)
        (t.map Char.toLower) * (3/10) := by
    simp only [SearchService.fuzzyMatchScore]
    rw [if_neg h1, if_neg h2, if_neg h3, if_pos hspos]
  refine ⟨?_, ?_, ?_⟩
  · rw [hfuzzy, hval, List.length_map, List.length_map]
    ring
  · rw [hfuzzy]
    nlinarith
  · rw [hfuzzy]
    nlinarith

/-- Witness for C5 at the query `jon` and target `john`: `jon` is an
ordered subsequence of `john` and no earlier tier fires. -/
theorem SearchService.fuzzyMatchScore_subsequence_tier_witness :
    (("john".toList).map Char.toLower ≠ ("jon".toList).map Char.toLower ∧
      ¬ (("jon".toList).map Char.toLower) <:+:
        (("john".toList).map Char.toLower) ∧
      ¬ ((("jon".toList).map Char.toLower) <+:
          (("john".toList).map Char.toLower) ∨
        (("john".toList).map Char.toLower) <+:
          (("jon".toList).map Char.toLower)) ∧
      (("jon".toList).map Char.toLower).Sublist
        (("john".toList).map Char.toLower)) ∧
      (SearchService.fuzzyMatchScore ("jon".toList) ("john".toList) =
          1/2 + 3/10 * (((("jon".toList).length : ℚ) /
            (("john".toList).length : ℚ) +
            ((SearchService.subsequenceLoop (("jon".toList).map Char.toLower)
                (("john".toList).map Char.toLower) 0 0).2 : ℚ) /
              (("jon".toList).length : ℚ)) / 2) ∧
        1/2 < SearchService.fuzzyMatchScore ("jon".toList) ("john".toList) ∧
          SearchService.fuzzyMatchScore ("jon".toList) ("john".toList) ≤
            8/10) :=
  ⟨⟨by decide, by decide, by decide, by decide⟩,
   SearchService.fuzzyMatchScore_subsequence_tier ("jon".toList)
     ("john".toList) (by decide) (by decide) (by decide) (by decide)⟩

/-- C6 counterexample: for the non-empty query `a` and the empty target the
score is 85/100, produced by the prefix tier (`"a".startsWith("")` is
true), not the edit-distance tier, whose value here would be 0. -/
theorem SearchService.fuzzyMatchScore_empty_target_counterexample :
    SearchService.fuzzyMatchScore ("a".toList) [] = 85/100 ∧
      (85/100 : ℚ) ≠ 0 := by
  constructor
  · norm_num +decide [SearchService.fuzzyMatchScore]
  · norm_num

/-- C6 (amended): for every non-empty query the empty target is decided by
the prefix tier, because every string starts with the empty string
(`search.startsWith(text)` with empty `text`); the containment tier does
not fire, the subsequence and edit-distance tiers are never reached, and
the score is 85/100 — in particular no division by zero occurs. -/
theorem SearchService.fuzzyMatchScore_empty_target
    (q : List Char) (h : q ≠ []) :
    SearchService.fuzzyMatchScore q [] = 85/100 := by
  have hq : q.map Char.toLower ≠ [] := by simpa using h
  simp only [SearchService.fuzzyMatchScore, List.map_nil]
  rw [if_neg (fun he => hq he.symm),
    if_neg (fun hinf => hq (List.eq_nil_of_infix_nil hinf)),
    if_pos (Or.inr List.nil_prefix)]

/-- Witness for C6 (amended) at the query `b`. -/
theorem SearchService.fuzzyMatchScore_empty_target_witness :
    ("b".toList) ≠ [] ∧
      SearchService.fuzzyMatchScore ("b".toList) [] = 85/100 :=
  ⟨by decide, SearchService.fuzzyMatchScore_empty_target ("b".toList)
    (by decide)⟩

namespace SearchService

/-- Under JS semantics the scoring loop succeeds on a collection whose
field values are all strings. -/
theorem resultsLoopJS_total (term : List Char) :
    ∀ (employees : List RawEmployee),
      (∀ e ∈ employees, e.first_name.isSome ∧ e.last_name.isSome ∧
        e.email.isSome ∧ e.role.isSome ∧ e.department.isSome ∧
        e.status.isSome) →
      ∃ res, resultsLoopJS term employees = Except.ok res
  | [], _ => ⟨[], rfl⟩
  | e :: l, h => by
    have he := h e (List.mem_cons_self e l)
    obtain ⟨f1, hf1⟩ := Option.isSome_iff_exists.mp he.1
    obtain ⟨f2, hf2⟩ := Option.isSome_iff_exists.mp he.2.1
    obtain ⟨f3, hf3⟩ := Option.isSome_iff_exists.mp he.2.2.1
    obtain ⟨f4, hf4⟩ := Option.isSome_iff_exists.mp he.2.2.2.1
    obtain ⟨f5, hf5⟩ := Option.isSome_iff_exists.mp he.2.2.2.2.1
    obtain ⟨f6, hf6⟩ := Option.isSome_iff_exists.mp he.2.2.2.2.2
    obtain ⟨res, hres⟩ := resultsLoopJS_total term l
      (fun x hx => h x (List.mem_cons_of_mem e hx))
    have hstep : resultsLoopJS term (e :: l) = Except.ok
        (if fuzzyThreshold ≤ max (fuzzyMatchScore term f1)
            (max (fuzzyMatchScore term f2) (max (fuzzyMatchScore term f3)
              (max (fuzzyMatchScore term f4) (max (fuzzyMatchScore term f5)
                (max (fuzzyMatchScore term f6) (fuzzyMatchScore term
                  (stringifyField e.first_name ++ [' '] ++
                    stringifyField e.last_name))))))) then
          ⟨e, max (fuzzyMatchScore term f1)
            (max (fuzzyMatchScore term f2) (max (fuzzyMatchScore term f3)
              (max (fuzzyMatchScore term f4) (max (fuzzyMatchScore term f5)
                (max (fuzzyMatchScore term f6) (fuzzyMatchScore term
                  (stringifyField e.first_name ++ [' '] ++
                    stringifyField e.last_name)))))))⟩ :: res
        else res) := by
      simp only [resultsLoopJS, bestScoreJS, fuzzyMatchScoreJS, hf1, hf2,
        hf3, hf4, hf5, hf6, hres]
    exact ⟨_, hstep⟩

end SearchService

/-- C7 counterexample: a collection holding one record whose `first_name`
is missing or not a string makes the whole ranking throw (`TypeError` from
`toLowerCase`), even though the other record is well formed — malformed
values are not treated as empty strings. -/
theorem SearchService.searchEmployeesJS_malformed_counterexample :
    SearchService.searchEmployeesJS
        [SearchService.rawBad, SearchService.rawGood] ("al".toList) =
      Except.error () := by
  norm_num +decide [SearchService.searchEmployeesJS,
    SearchService.resultsLoopJS, SearchService.bestScoreJS,
    SearchService.fuzzyMatchScoreJS, SearchService.rawBad]

/-- C7 (amended): ranking is total over collections all of whose field
values are strings; a missing or non-string field value is not coerced to
the empty string but raises while that record is scored, aborting the
ranking of the whole collection. -/
theorem SearchService.searchEmployeesJS_total_of_strings
    (employees : List SearchService.RawEmployee) (searchTerm : List Char)
    (h : ∀ e ∈ employees, e.first_name.isSome ∧ e.last_name.isSome ∧
      e.email.isSome ∧ e.role.isSome ∧ e.department.isSome ∧
      e.status.isSome) :
    ∃ out, SearchService.searchEmployeesJS employees searchTerm =
      Except.ok out := by
  by_cases ht : SearchService.trim searchTerm = []
  · exact ⟨employees, by simp [SearchService.searchEmployeesJS, ht]⟩
  · obtain ⟨res, hres⟩ := SearchService.resultsLoopJS_total
      (SearchService.trim searchTerm) employees h
    refine ⟨(res.mergeSort SearchService.rawResultLE).map
      fun r => r.employee, ?_⟩
    simp only [SearchService.searchEmployeesJS, if_neg ht, hres]

/-- Witness for C7 (amended) on a one-record well-formed collection. -/
theorem SearchService.searchEmployeesJS_total_of_strings_witness :
    (∀ e ∈ [SearchService.rawGood], e.first_name.isSome ∧
      e.last_name.isSome ∧ e.email.isSome ∧ e.role.isSome ∧
      e.department.isSome ∧ e.status.isSome) ∧
      ∃ out, SearchService.searchEmployeesJS [SearchService.rawGood]
        ("al".toList) = Except.ok out :=
  ⟨by decide,
   SearchService.searchEmployeesJS_total_of_strings
     [SearchService.rawGood] ("al".toList) (by decide)⟩
